import Mathlib

/-
Verification of the grid-background removal pipeline
(src/mobile/remove_background_simple.py, function remove_grid_background).

The Python function loads an image, converts it to RGBA, and runs four
in-memory passes over the pixel buffer:
  1. background estimation from the four corner pixels,
  2. a color-distance / brightness mask,
  3. a row and column line suppressor,
  4. a foreground protector, followed by a PIL SMOOTH_MORE filter.

Embedding conventions.
NumPy float comparisons against integer thresholds are modelled exactly with
integer arithmetic: mean(rgb) > t  iff  r+g+b > 3*t, and
sqrt(sum((p-bg)^2)) < 40  iff  sum((4*p - 4*bg)^2) < 16*1600 = 25600,
where 4*bg is the exact sum of the four corner channel values (the corner
mean is a quarter-integer, exact in float64, and the compared quantities are
far enough from the thresholds that float64 rounding never crosses them).
The uint8 wraparound of r + 10 in the protector pass is kept as (r+10) % 256.
The PIL SMOOTH_MORE filter is the 5x5 kernel
  1 1 1 1 1 / 1 5 5 5 1 / 1 5 44 5 1 / 1 5 5 5 1 / 1 1 1 1 1
with divisor 100 and offset 0, applied to each of the four bands
independently; pixels within two of an image edge are copied unchanged, and
images narrower or shorter than 5 are copied whole.  Pillow computes the
convolution in float32 and truncates toward zero; the embedding computes the
exact integer sum and truncating division, which agrees with the float32
computation at every value decided in this development.
-/

structure Pixel where
  r : Nat
  g : Nat
  b : Nat
  a : Nat
deriving DecidableEq, Repr

/-- The value written for a removed pixel: result_data[y, x] = [0, 0, 0, 0]. -/
def zeroPix : Pixel := ⟨0, 0, 0, 0⟩

/-- Three-channel sum; np.mean(pixel[:3]) > t iff sum3 > 3*t. -/
def sum3 (p : Pixel) : Nat := p.r + p.g + p.b

/-- An image is the numpy array data: a list of rows of RGBA pixels. -/
abbrev Image := List (List Pixel)

/-- data[y, x], with an out-of-range default (never used on valid indices). -/
def pixelAt (img : Image) (y x : Nat) : Pixel := (img.getD y []).getD x zeroPix

/-- height, as in height, width = data.shape[:2]. -/
def imgH (img : Image) : Nat := img.length

/-- width, as in height, width = data.shape[:2]. -/
def imgW (img : Image) : Nat := (img.getD 0 []).length

/-- Build an h-by-w image from a per-position pixel function; the passes of
the source iterate for y in range(height), for x in range(width). -/
def mkImg (h w : Nat) (f : Nat → Nat → Pixel) : Image :=
  (List.range h).map fun y => (List.range w).map fun x => f y x

/-- Four times the estimated background color: the per-channel sums of the
four corner pixels of the original data (bg_color is their mean). -/
structure BgSum where
  sr : Nat
  sg : Nat
  sb : Nat
deriving DecidableEq, Repr

/-- corner_colors = data[0,0], data[0,w-1], data[h-1,0], data[h-1,w-1];
bg_color = np.mean(corner_colors, axis=0), stored here times 4. -/
def bgOf (img : Image) : BgSum :=
  ⟨(pixelAt img 0 0).r + (pixelAt img 0 (imgW img - 1)).r +
      (pixelAt img (imgH img - 1) 0).r + (pixelAt img (imgH img - 1) (imgW img - 1)).r,
    (pixelAt img 0 0).g + (pixelAt img 0 (imgW img - 1)).g +
      (pixelAt img (imgH img - 1) 0).g + (pixelAt img (imgH img - 1) (imgW img - 1)).g,
    (pixelAt img 0 0).b + (pixelAt img 0 (imgW img - 1)).b +
      (pixelAt img (imgH img - 1) 0).b + (pixelAt img (imgH img - 1) (imgW img - 1)).b⟩

/-- 16 times the squared Euclidean RGB distance between pixel and bg_color;
color_diff < tolerance(=40) iff dist2 < 25600. -/
def dist2 (bg : BgSum) (p : Pixel) : Int :=
  (4 * (p.r : Int) - bg.sr) * (4 * (p.r : Int) - bg.sr) +
    (4 * (p.g : Int) - bg.sg) * (4 * (p.g : Int) - bg.sg) +
    (4 * (p.b : Int) - bg.sb) * (4 * (p.b : Int) - bg.sb)

/-- Method 1, per pixel of the original data:
if color_diff < tolerance: (if mean > 180: clear)  elif mean > 240: clear. -/
def maskPixel (bg : BgSum) (p : Pixel) : Pixel :=
  if dist2 bg p < 25600 then
    if 540 < sum3 p then zeroPix else p
  else if 720 < sum3 p then zeroPix else p

/-- Method 1 over the whole buffer (reads data, writes result_data). -/
def afterMask (img : Image) : Image :=
  mkImg (imgH img) (imgW img) fun y x => maskPixel (bgOf img) (pixelAt img y x)

/-- The running-count scan of Method 2: count increments on a pixel with
np.mean(rgb) > 220 and alpha > 0, resets to 0 otherwise; returns true as
soon as count > width * 0.6 (exactly: 5 * count > 3 * w). -/
def rowScanGo (w : Nat) : List Pixel → Nat → Bool
  | [], _ => false
  | p :: ps, c =>
    let c2 := if 660 < sum3 p ∧ 0 < p.a then c + 1 else 0
    if 3 * w < 5 * c2 then true else rowScanGo w ps c2

/-- The wipe applied to a detected line: clear every pixel with mean > 200. -/
def wipe200 (p : Pixel) : Pixel := if 600 < sum3 p then zeroPix else p

/-- One row (or, with w := height, one column) of Method 2: if the scan
triggers, the whole row is re-scanned and light pixels cleared, then the
loop breaks; otherwise the row is untouched. -/
def suppressRow (w : Nat) (row : List Pixel) : List Pixel :=
  if rowScanGo w row 0 = true then row.map wipe200 else row

/-- Horizontal pass of Method 2: each row is processed independently. -/
def afterRows (img : Image) : Image := (afterMask img).map (suppressRow (imgW img))

/-- Column x of a buffer, top to bottom. -/
def colOf (img : Image) (h x : Nat) : List Pixel :=
  (List.range h).map fun y => pixelAt img y x

/-- Vertical pass of Method 2 on the row-passed buffer: the same scan and
wipe run down each column with the threshold height * 0.6; columns only
write their own pixels, so they are independent. -/
def afterCols (img : Image) : Image :=
  mkImg (imgH img) (imgW img) fun y x =>
    (suppressRow (imgH img) (colOf (afterRows img) (imgH img) x)).getD y zeroPix

/-- Method 3, per pixel: r, g, b are uint8, so r + 10 wraps modulo 256.
if b > r+10 and b > g+10: (if alpha == 0: restore original)
elif max(r,g,b) - min(r,g,b) > 15: (if alpha == 0: restore original). -/
def protectPixel (orig cur : Pixel) : Pixel :=
  if (cur.r + 10) % 256 < cur.b ∧ (cur.g + 10) % 256 < cur.b then
    if cur.a = 0 then orig else cur
  else if 15 < max cur.r (max cur.g cur.b) - min cur.r (min cur.g cur.b) then
    if cur.a = 0 then orig else cur
  else cur

/-- Method 3 over the buffer; the original pixel comes from data. -/
def afterProt (img : Image) : Image :=
  mkImg (imgH img) (imgW img) fun y x =>
    protectPixel (pixelAt img y x) (pixelAt (afterCols img) y x)

/-- The SMOOTH_MORE 5x5 kernel entry at row i, column j. -/
def kern (i j : Nat) : Nat :=
  if i = 0 ∨ i = 4 ∨ j = 0 ∨ j = 4 then 1 else if i = 2 ∧ j = 2 then 44 else 5

/-- Kernel-weighted window sum of one channel around (y, x). -/
def convChan (img : Image) (y x : Nat) (sel : Pixel → Nat) : Nat :=
  ((List.range 5).map fun i =>
    ((List.range 5).map fun j =>
      kern i j * sel (pixelAt img (y + i - 2) (x + j - 2))).sum).sum

/-- Pillow clip8 of windowSum / 100: values at or above 255 clamp to 255,
otherwise the quotient is truncated. -/
def clip8 (s : Nat) : Nat := if 25500 ≤ s then 255 else s / 100

/-- One output pixel of the SMOOTH_MORE filter: interior pixels (two or more
away from every edge) are convolved on all four bands, border pixels are
copied; when the image is narrower or shorter than 5 no pixel is interior
and the whole image is copied. -/
def smoothAt (img : Image) (h w y x : Nat) : Pixel :=
  if 2 ≤ y ∧ y + 2 < h ∧ 2 ≤ x ∧ x + 2 < w then
    ⟨clip8 (convChan img y x Pixel.r), clip8 (convChan img y x Pixel.g),
      clip8 (convChan img y x Pixel.b), clip8 (convChan img y x Pixel.a)⟩
  else pixelAt img y x

/-- result_img.filter(ImageFilter.SMOOTH_MORE). -/
def smoothStage (img : Image) : Image :=
  mkImg (imgH img) (imgW img) fun y x => smoothAt img (imgH img) (imgW img) y x

/-- The four numeric passes in source order on a decoded buffer. -/
def pipelineCore (img : Image) : Image := smoothStage (afterProt img)

/-- A decodable buffer: rectangular with nonzero height and width.  The
source indexes data[0, 0] .. data[height-1, width-1] immediately after
reading data.shape; a zero-dimension or ragged buffer fails there. -/
def wellFormed (img : Image) : Prop :=
  0 < imgH img ∧ 0 < imgW img ∧ ∀ row ∈ img, row.length = imgW img

instance (img : Image) : Decidable (wellFormed img) := by
  unfold wellFormed
  infer_instance

/-- The only checked failure mode of the call. -/
inductive PipelineError where
  | invalidImageFormat
deriving DecidableEq, Repr

/-- The pipeline call: a buffer that cannot be read as a rectangular RGBA
grid aborts with no output (the uncaught decode error of the script,
surfaced as the InvalidImageFormat condition of the spec); the numeric
passes themselves are total. -/
def remove_grid_background (img : Image) : Except PipelineError Image :=
  if wellFormed img then Except.ok (pipelineCore img)
  else Except.error PipelineError.invalidImageFormat

/-- The row scan as the spec narrates it: the count would also increment on
already-transparent pixels (alpha = 0) instead of resetting there.  Kept
only to compare with the scan the source actually performs. -/
def claimRowScanGo (w : Nat) : List Pixel → Nat → Bool
  | [], _ => false
  | p :: ps, c =>
    let c2 := if p.a = 0 ∨ 660 < sum3 p then c + 1 else 0
    if 3 * w < 5 * c2 then true else claimRowScanGo w ps c2

/-- Row handling under the narrated scan, for comparison with suppressRow. -/
def claimSuppressRow (w : Nat) (row : List Pixel) : List Pixel :=
  if claimRowScanGo w row 0 = true then row.map wipe200 else row

/-- The horizontal pass under the narrated scan. -/
def claimAfterRows (img : Image) : Image :=
  (afterMask img).map (claimSuppressRow (imgW img))

/-- A contiguous run of pixels that are opaque and brighter than 220,
longer than 0.6 of the scan length: what actually triggers the suppressor. -/
def RunExists (w : Nat) (row : List Pixel) : Prop :=
  ∃ l1 run l2, row = l1 ++ run ++ l2 ∧
    (∀ p ∈ run, 660 < sum3 p ∧ 0 < p.a) ∧ 3 * w < 5 * run.length

/-- Equality of the three color channels. -/
def rgbEq (p q : Pixel) : Prop := p.r = q.r ∧ p.g = q.g ∧ p.b = q.b

instance (p q : Pixel) : Decidable (rgbEq p q) := by
  unfold rgbEq
  infer_instance

/- Concrete test images. -/

/-- A 2-by-2 fully black opaque image. -/
def imgBlack2 : Image := List.replicate 2 (List.replicate 2 ⟨0, 0, 0, 255⟩)

/-- A 3-by-3 fully black opaque image. -/
def imgBlack3 : Image := List.replicate 3 (List.replicate 3 ⟨0, 0, 0, 255⟩)

/-- A 2-by-2 image of a light blue-dominant saturated color. -/
def imgBlue2 : Image := List.replicate 2 (List.replicate 2 ⟨200, 200, 255, 255⟩)

/-- A 3-by-3 light gray image with a dark red center pixel. -/
def imgGray3 : Image :=
  [[⟨200, 200, 200, 255⟩, ⟨200, 200, 200, 255⟩, ⟨200, 200, 200, 255⟩],
   [⟨200, 200, 200, 255⟩, ⟨100, 0, 0, 255⟩, ⟨200, 200, 200, 255⟩],
   [⟨200, 200, 200, 255⟩, ⟨100, 0, 0, 255⟩, ⟨200, 200, 200, 255⟩]]

/-- Dark red border pixel of the 5-by-5 smoothing example. -/
def borderC1 : Pixel := ⟨100, 0, 0, 255⟩

/-- A full border row of the 5-by-5 smoothing example. -/
def rowC1 : List Pixel := List.replicate 5 borderC1

/-- The middle row of the 5-by-5 smoothing example: black center pixel. -/
def midC1 : List Pixel := [borderC1, borderC1, ⟨0, 0, 0, 255⟩, borderC1, borderC1]

/-- A 5-by-5 dark opaque image whose center differs from its neighbors. -/
def imgC1 : Image := [rowC1, rowC1, midC1, rowC1, rowC1]

/-- A bright opaque pixel (mean 240, above the 220 line threshold). -/
def pxL : Pixel := ⟨255, 255, 210, 255⟩

/-- The same bright color, but transparent already in the input. -/
def pxT : Pixel := ⟨255, 255, 210, 0⟩

/-- A 3-by-3 image whose middle row is bright-transparent-bright over a
black background; the mask pass leaves it untouched. -/
def imgLine3 : Image :=
  [[⟨0, 0, 0, 255⟩, ⟨0, 0, 0, 255⟩, ⟨0, 0, 0, 255⟩],
   [pxL, pxT, pxL],
   [⟨0, 0, 0, 255⟩, ⟨0, 0, 0, 255⟩, ⟨0, 0, 0, 255⟩]]


/- Index and dimension helpers. -/

theorem getD_range_map {α : Type} (n : Nat) (f : Nat → α) (d : α) (i : Nat)
    (hi : i < n) : ((List.range n).map f).getD i d = f i := by
  rw [List.getD_eq_getElem?_getD, List.getElem?_map, List.getElem?_range hi,
    Option.map_some', Option.getD_some]

theorem getD_range_map_low {α : Type} (n : Nat) (f : Nat → α) (d : α) (i : Nat)
    (hi : n ≤ i) : ((List.range n).map f).getD i d = d := by
  rw [List.getD_eq_getElem?_getD, List.getElem?_eq_none (by simpa using hi),
    Option.getD_none]

theorem getD_map_getD {α β : Type} (l : List α) (f : α → β) (d : α) (e : β)
    (he : f d = e) (i : Nat) : (l.map f).getD i e = f (l.getD i d) := by
  by_cases hi : i < l.length
  · rw [List.getD_eq_getElem?_getD, List.getElem?_map, List.getElem?_eq_getElem hi,
      Option.map_some', Option.getD_some, List.getD_eq_getElem?_getD,
      List.getElem?_eq_getElem hi, Option.getD_some]
  · have h1 : l.length ≤ i := le_of_not_lt hi
    rw [List.getD_eq_getElem?_getD, List.getElem?_eq_none (by simpa using h1),
      Option.getD_none, List.getD_eq_getElem?_getD, List.getElem?_eq_none h1,
      Option.getD_none, he]

theorem pixelAt_mkImg (h w : Nat) (f : Nat → Nat → Pixel) (y x : Nat)
    (hy : y < h) (hx : x < w) : pixelAt (mkImg h w f) y x = f y x := by
  unfold pixelAt mkImg
  rw [getD_range_map h _ [] y hy, getD_range_map w _ zeroPix x hx]

theorem pixelAt_mkImg_low (h w : Nat) (f : Nat → Nat → Pixel) (y x : Nat)
    (hy : h ≤ y) : pixelAt (mkImg h w f) y x = zeroPix := by
  unfold pixelAt mkImg
  rw [getD_range_map_low h _ [] y hy]
  rfl

theorem pixelAt_mkImg_high (h w : Nat) (f : Nat → Nat → Pixel) (y x : Nat)
    (hy : y < h) (hx : w ≤ x) : pixelAt (mkImg h w f) y x = zeroPix := by
  unfold pixelAt mkImg
  rw [getD_range_map h _ [] y hy, getD_range_map_low w _ zeroPix x hx]

theorem imgH_mkImg (h w : Nat) (f : Nat → Nat → Pixel) : imgH (mkImg h w f) = h := by
  simp [imgH, mkImg]

theorem imgW_mkImg (h w : Nat) (f : Nat → Nat → Pixel) (hh : 0 < h) :
    imgW (mkImg h w f) = w := by
  unfold imgW mkImg
  rw [getD_range_map h _ [] 0 hh]
  simp

theorem mkImg_rows (h w : Nat) (f : Nat → Nat → Pixel) :
    ∀ row ∈ mkImg h w f, row.length = w := by
  intro row hrow
  unfold mkImg at hrow
  rcases List.mem_map.mp hrow with ⟨y, _, hrw⟩
  rw [← hrw]
  simp

theorem mkImg_congr (h w : Nat) (f g : Nat → Nat → Pixel)
    (he : ∀ y, y < h → ∀ x, x < w → f y x = g y x) : mkImg h w f = mkImg h w g := by
  unfold mkImg
  apply List.map_congr_left
  intro y hy
  apply List.map_congr_left
  intro x hx
  exact he y (List.mem_range.mp hy) x (List.mem_range.mp hx)

/- Per-pass shape of a written pixel: each pass either keeps a pixel or
writes the transparent zero pixel for it. -/

theorem maskPixel_or (bg : BgSum) (p : Pixel) :
    maskPixel bg p = p ∨ maskPixel bg p = zeroPix := by
  unfold maskPixel
  split_ifs <;> simp

theorem wipe200_or (p : Pixel) : wipe200 p = p ∨ wipe200 p = zeroPix := by
  unfold wipe200
  split_ifs <;> simp

theorem wipe200_zero : wipe200 zeroPix = zeroPix := by
  norm_num [wipe200, sum3, zeroPix]

theorem suppressRow_empty (w : Nat) : suppressRow w [] = [] := by
  simp [suppressRow, rowScanGo]

theorem getD_suppressRow (w : Nat) (l : List Pixel) (x : Nat) :
    (suppressRow w l).getD x zeroPix = l.getD x zeroPix ∨
    (suppressRow w l).getD x zeroPix = wipe200 (l.getD x zeroPix) := by
  unfold suppressRow
  split_ifs with h
  · right
    exact getD_map_getD l wipe200 zeroPix zeroPix wipe200_zero x
  · left
    rfl

theorem getD_map_suppressRow (w : Nat) (L : Image) (y : Nat) :
    (L.map (suppressRow w)).getD y [] = suppressRow w (L.getD y []) := by
  exact getD_map_getD L (suppressRow w) [] [] (suppressRow_empty w) y

theorem getD_colOf (img : Image) (h x y : Nat) (hy : y < h) :
    (colOf img h x).getD y zeroPix = pixelAt img y x := by
  unfold colOf
  rw [getD_range_map h _ zeroPix y hy]

theorem afterMask_or (img : Image) (y x : Nat) :
    pixelAt (afterMask img) y x = pixelAt img y x ∨
    pixelAt (afterMask img) y x = zeroPix := by
  by_cases hy : y < imgH img
  · by_cases hx : x < imgW img
    · rw [afterMask, pixelAt_mkImg _ _ _ _ _ hy hx]
      exact maskPixel_or _ _
    · right
      rw [afterMask]
      exact pixelAt_mkImg_high _ _ _ _ _ hy (le_of_not_lt hx)
  · right
    rw [afterMask]
    exact pixelAt_mkImg_low _ _ _ _ _ (le_of_not_lt hy)

theorem afterRows_or (img : Image) (y x : Nat) :
    pixelAt (afterRows img) y x = pixelAt (afterMask img) y x ∨
    pixelAt (afterRows img) y x = wipe200 (pixelAt (afterMask img) y x) := by
  unfold afterRows pixelAt
  rw [getD_map_suppressRow]
  exact getD_suppressRow _ _ _

theorem afterRows_or_zero (img : Image) (y x : Nat) :
    pixelAt (afterRows img) y x = pixelAt img y x ∨
    pixelAt (afterRows img) y x = zeroPix := by
  rcases afterRows_or img y x with h | h <;> rcases afterMask_or img y x with h2 | h2
  · left
    rw [h, h2]
  · right
    rw [h, h2]
  · rw [h, h2]
    exact wipe200_or (pixelAt img y x)
  · right
    rw [h, h2, wipe200_zero]

theorem afterCols_or_zero (img : Image) (y x : Nat) :
    pixelAt (afterCols img) y x = pixelAt img y x ∨
    pixelAt (afterCols img) y x = zeroPix := by
  by_cases hy : y < imgH img
  · by_cases hx : x < imgW img
    · rw [afterCols, pixelAt_mkImg _ _ _ _ _ hy hx]
      rcases getD_suppressRow (imgH img) (colOf (afterRows img) (imgH img) x) y with h | h
      · rw [h, getD_colOf _ _ _ _ hy]
        exact afterRows_or_zero img y x
      · rw [h, getD_colOf _ _ _ _ hy]
        rcases afterRows_or_zero img y x with h2 | h2
        · rw [h2]
          exact wipe200_or (pixelAt img y x)
        · right
          rw [h2, wipe200_zero]
    · right
      rw [afterCols]
      exact pixelAt_mkImg_high _ _ _ _ _ hy (le_of_not_lt hx)
  · right
    rw [afterCols]
    exact pixelAt_mkImg_low _ _ _ _ _ (le_of_not_lt hy)

/- The protector pass never changes the buffer: a cleared pixel has RGB
(0,0,0), which fails both protection tests, and an unchanged pixel is
restored (if at all) to its own value. -/

theorem protectPixel_self (p : Pixel) : protectPixel p p = p := by
  unfold protectPixel
  split_ifs <;> rfl

theorem protectPixel_zero (orig : Pixel) : protectPixel orig zeroPix = zeroPix := by
  norm_num [protectPixel, zeroPix]

theorem protector_identity (img : Image) : afterProt img = afterCols img := by
  have hcols : afterCols img = mkImg (imgH img) (imgW img) fun y x =>
      (suppressRow (imgH img) (colOf (afterRows img) (imgH img) x)).getD y zeroPix := rfl
  rw [afterProt]
  conv_rhs => rw [hcols]
  apply mkImg_congr
  intro y hy x hx
  have hpix : pixelAt (afterCols img) y x =
      (suppressRow (imgH img) (colOf (afterRows img) (imgH img) x)).getD y zeroPix := by
    rw [hcols]
    exact pixelAt_mkImg _ _ _ _ _ hy hx
  rw [← hpix]
  rcases afterCols_or_zero img y x with h | h
  · rw [h]
    exact protectPixel_self _
  · rw [h]
    exact protectPixel_zero _

/- Characterization of the suppressor scan: it fires exactly when the row
contains a contiguous run of opaque-and-bright pixels longer than 0.6 of
the scan length. -/

theorem rowScanGo_of_run (w : Nat) (run : List Pixel) :
    ∀ (l2 : List Pixel) (c : Nat), run ≠ [] →
      (∀ p ∈ run, 660 < sum3 p ∧ 0 < p.a) → 3 * w < 5 * (c + run.length) →
      rowScanGo w (run ++ l2) c = true := by
  induction run with
  | nil =>
    intro l2 c hne _ _
    exact absurd rfl hne
  | cons p run ih =>
    intro l2 c _ hlight hcount
    have hp := hlight p (List.mem_cons_self p run)
    simp only [List.cons_append, rowScanGo]
    rw [if_pos hp]
    by_cases hc : 3 * w < 5 * (c + 1)
    · rw [if_pos hc]
    · rw [if_neg hc]
      cases hrun : run with
      | nil =>
        subst hrun
        simp only [List.length_cons, List.length_nil] at hcount
        omega
      | cons q run2 =>
        subst hrun
        apply ih l2 (c + 1) (by simp)
        · intro r hr
          exact hlight r (List.mem_cons_of_mem p hr)
        · simp only [List.length_cons] at hcount ⊢
          omega

theorem rowScanGo_of_run_prefix (w : Nat) (l1 : List Pixel) :
    ∀ (run l2 : List Pixel) (c : Nat),
      (∀ p ∈ run, 660 < sum3 p ∧ 0 < p.a) → 3 * w < 5 * run.length →
      rowScanGo w (l1 ++ run ++ l2) c = true := by
  induction l1 with
  | nil =>
    intro run l2 c hlight hcount
    have hne : run ≠ [] := by
      intro h
      subst h
      simp at hcount
    simpa using rowScanGo_of_run w run l2 c hne hlight (by omega)
  | cons q l1 ih =>
    intro run l2 c hlight hcount
    simp only [List.cons_append, rowScanGo]
    by_cases hq : 660 < sum3 q ∧ 0 < q.a
    · rw [if_pos hq]
      by_cases hc : 3 * w < 5 * (c + 1)
      · rw [if_pos hc]
      · rw [if_neg hc]
        exact ih run l2 (c + 1) hlight hcount
    · rw [if_neg hq]
      have hc0 : ¬ 3 * w < 5 * 0 := by omega
      rw [if_neg hc0]
      exact ih run l2 0 hlight hcount

theorem run_of_rowScanGo (w : Nat) (l : List Pixel) :
    ∀ c, rowScanGo w l c = true →
      ∃ l1 run l2, l = l1 ++ run ++ l2 ∧ (∀ p ∈ run, 660 < sum3 p ∧ 0 < p.a) ∧
        3 * w < 5 * (run.length + if l1 = [] then c else 0) := by
  induction l with
  | nil =>
    intro c h
    simp [rowScanGo] at h
  | cons p ps ih =>
    intro c h
    simp only [rowScanGo] at h
    by_cases hp : 660 < sum3 p ∧ 0 < p.a
    · rw [if_pos hp] at h
      by_cases hc : 3 * w < 5 * (c + 1)
      · refine ⟨[], [p], ps, by simp, ?_, ?_⟩
        · intro q hq
          rcases List.mem_cons.mp hq with h1 | h1
          · subst h1
            exact hp
          · simp at h1
        · simp
          omega
      · rw [if_neg hc] at h
        rcases ih (c + 1) h with ⟨l1, run, l2, heq, hlight, hcount⟩
        cases l1 with
        | nil =>
          refine ⟨[], p :: run, l2, by simp [heq], ?_, ?_⟩
          · intro q hq
            rcases List.mem_cons.mp hq with h1 | h1
            · subst h1
              exact hp
            · exact hlight q h1
          · simp at hcount ⊢
            omega
        | cons r l1 =>
          refine ⟨p :: r :: l1, run, l2, by simp [heq], hlight, ?_⟩
          simp only [if_neg (List.cons_ne_nil r l1)] at hcount
          simp only [if_neg (List.cons_ne_nil p (r :: l1))]
          omega
    · rw [if_neg hp] at h
      have hc0 : ¬ 3 * w < 5 * 0 := by omega
      rw [if_neg hc0] at h
      rcases ih 0 h with ⟨l1, run, l2, heq, hlight, hcount⟩
      refine ⟨p :: l1, run, l2, by simp [heq], hlight, ?_⟩
      simp only [if_neg (List.cons_ne_nil p l1)]
      by_cases hl : l1 = [] <;> simp [hl] at hcount <;> omega

theorem runExists_iff_scan (w : Nat) (row : List Pixel) :
    RunExists w row ↔ rowScanGo w row 0 = true := by
  constructor
  · rintro ⟨l1, run, l2, heq, hlight, hcount⟩
    rw [heq]
    exact rowScanGo_of_run_prefix w l1 run l2 0 hlight hcount
  · intro h
    rcases run_of_rowScanGo w row 0 h with ⟨l1, run, l2, heq, hlight, hcount⟩
    refine ⟨l1, run, l2, heq, hlight, ?_⟩
    by_cases hl : l1 = [] <;> simp [hl] at hcount <;> omega

/- An all-zero buffer is a fixed point of the suppressor and protector, and
the smoothing of an all-zero channel is zero. -/

theorem rowScanGo_zero (w : Nat) (l : List Pixel) :
    ∀ c, (∀ p ∈ l, p = zeroPix) → rowScanGo w l c = false := by
  induction l with
  | nil =>
    intro c _
    rfl
  | cons p ps ih =>
    intro c hz
    have hp : p = zeroPix := hz p (List.mem_cons_self p ps)
    simp only [rowScanGo]
    have hcond : ¬ (660 < sum3 p ∧ 0 < p.a) := by
      subst hp
      norm_num [sum3, zeroPix]
    rw [if_neg hcond, if_neg (by omega : ¬ 3 * w < 5 * 0)]
    exact ih 0 fun q hq => hz q (List.mem_cons_of_mem p hq)

theorem suppressRow_zeroRow (w : Nat) (l : List Pixel)
    (hz : ∀ p ∈ l, p = zeroPix) : suppressRow w l = l := by
  unfold suppressRow
  rw [rowScanGo_zero w l 0 hz]
  simp

theorem getD_zeroList (l : List Pixel) (n : Nat) (hz : ∀ p ∈ l, p = zeroPix) :
    l.getD n zeroPix = zeroPix := by
  by_cases hn : n < l.length
  · rw [List.getD_eq_getElem?_getD, List.getElem?_eq_getElem hn, Option.getD_some]
    exact hz _ (List.getElem_mem hn)
  · rw [List.getD_eq_getElem?_getD,
      List.getElem?_eq_none (by simpa using le_of_not_lt hn), Option.getD_none]

theorem clip8_pos (s : Nat) (hs : 11220 ≤ s) : 0 < clip8 s := by
  unfold clip8
  split_ifs with h
  · norm_num
  · have h1 : (11220 : Nat) / 100 ≤ s / 100 := Nat.div_le_div_right hs
    norm_num at h1
    omega

theorem convChan_ge_center (img : Image) (y x : Nat) (sel : Pixel → Nat) :
    44 * sel (pixelAt img y x) ≤ convChan img y x sel := by
  unfold convChan
  have h2 : (2 : Nat) ∈ List.range 5 := by decide
  have hkk : kern 2 2 * sel (pixelAt img (y + 2 - 2) (x + 2 - 2)) =
      44 * sel (pixelAt img y x) := by
    norm_num [kern]
  have hinner : 44 * sel (pixelAt img y x) ≤
      ((List.range 5).map fun j => kern 2 j * sel (pixelAt img (y + 2 - 2) (x + j - 2))).sum := by
    rw [← hkk]
    exact List.single_le_sum (fun q _ => Nat.zero_le q) _ (List.mem_map_of_mem _ h2)
  exact le_trans hinner
    (List.single_le_sum (fun q _ => Nat.zero_le q) _ (List.mem_map_of_mem _ h2))

theorem convChan_zeroWindow (img : Image) (y x : Nat) (sel : Pixel → Nat)
    (hz : ∀ i j, i < 5 → j < 5 → sel (pixelAt img (y + i - 2) (x + j - 2)) = 0) :
    convChan img y x sel = 0 := by
  unfold convChan
  apply List.sum_eq_zero
  intro s hs
  rcases List.mem_map.mp hs with ⟨i, hi, hsi⟩
  rw [← hsi]
  apply List.sum_eq_zero
  intro t ht
  rcases List.mem_map.mp ht with ⟨j, hj, htj⟩
  rw [← htj, hz i j (List.mem_range.mp hi) (List.mem_range.mp hj)]
  simp

/- Claim theorems. -/

/-- C5: for every input image the Foreground Protector pass is the identity
on the working buffer: every pixel it sees with alpha 0 was either cleared
by an earlier pass, so its stored RGB is (0,0,0) and neither the
blue-dominance test nor the spread test can fire, or it was already
transparent in the input, in which case restoring writes back an identical
pixel; the restoration branch never changes any pixel value. -/
theorem c5_protector_is_identity (img : Image) : afterProt img = afterCols img :=
  protector_identity img

/-- C3: the color-distance mask sets a pixel transparent exactly when its
distance to the estimated background color is below the tolerance and its
mean brightness exceeds 180, or its mean brightness exceeds 240: the
if/elif of the pass is equivalent to that disjunction, each disjunct being
individually sufficient. -/
theorem c3_mask_disjunction (img : Image) (y x : Nat)
    (hy : y < imgH img) (hx : x < imgW img) :
    pixelAt (afterMask img) y x =
      if (dist2 (bgOf img) (pixelAt img y x) < 25600 ∧ 540 < sum3 (pixelAt img y x))
          ∨ 720 < sum3 (pixelAt img y x) then zeroPix
      else pixelAt img y x := by
  rw [afterMask, pixelAt_mkImg _ _ _ _ _ hy hx]
  unfold maskPixel
  rcases lt_or_le (dist2 (bgOf img) (pixelAt img y x)) 25600 with hd | hd
  · rw [if_pos hd]
    by_cases hb : 540 < sum3 (pixelAt img y x)
    · rw [if_pos hb, if_pos (Or.inl ⟨hd, hb⟩)]
    · rw [if_neg hb, if_neg]
      rintro (⟨-, h5⟩ | h7)
      · exact hb h5
      · exact hb (by omega)
  · rw [if_neg (not_lt.mpr hd)]
    by_cases hb : 720 < sum3 (pixelAt img y x)
    · rw [if_pos hb, if_pos (Or.inr hb)]
    · rw [if_neg hb, if_neg]
      rintro (⟨h1, -⟩ | h7)
      · exact absurd h1 (not_lt.mpr hd)
      · exact hb h7

/-- Witness for C3 at a concrete image and position. -/
theorem c3_witness :
    pixelAt (afterMask imgGray3) 0 0 =
      if (dist2 (bgOf imgGray3) (pixelAt imgGray3 0 0) < 25600 ∧
            540 < sum3 (pixelAt imgGray3 0 0)) ∨ 720 < sum3 (pixelAt imgGray3 0 0)
      then zeroPix else pixelAt imgGray3 0 0 :=
  c3_mask_disjunction imgGray3 0 0 (by decide) (by decide)

/-- C8: a buffer that cannot be read as a rectangular grid with nonzero
dimensions fails with the InvalidImageFormat condition and produces no
output; on every well-formed buffer the call returns an image, so the
numeric passes never fail. -/
theorem c8_error_handling (img : Image) :
    (¬ wellFormed img ↔
      remove_grid_background img = Except.error PipelineError.invalidImageFormat) ∧
    (wellFormed img → remove_grid_background img = Except.ok (pipelineCore img)) := by
  unfold remove_grid_background
  by_cases h : wellFormed img
  · rw [if_pos h]
    refine ⟨⟨fun hn => absurd h hn, fun he => Except.noConfusion he⟩, fun _ => rfl⟩
  · rw [if_neg h]
    exact ⟨⟨fun _ => rfl, fun _ => h⟩, fun hw => absurd hw h⟩

/-- Witness for C8: the empty buffer fails, a concrete 2-by-2 image runs. -/
theorem c8_witness :
    remove_grid_background ([] : Image) = Except.error PipelineError.invalidImageFormat ∧
    remove_grid_background imgBlack2 = Except.ok (pipelineCore imgBlack2) :=
  ⟨(c8_error_handling ([] : Image)).1.mp (by decide),
    (c8_error_handling imgBlack2).2 (by decide)⟩

/-- C10: the output image has exactly the height and width of the input. -/
theorem c10_dimension_preservation (img : Image) (hwf : wellFormed img) :
    imgH (pipelineCore img) = imgH img ∧ imgW (pipelineCore img) = imgW img ∧
    ∀ row ∈ pipelineCore img, row.length = imgW img := by
  obtain ⟨hh, hw, -⟩ := hwf
  have hP : imgH (afterProt img) = imgH img := imgH_mkImg _ _ _
  have hh2 : 0 < imgH (afterProt img) := by
    rw [hP]
    exact hh
  have hPw : imgW (afterProt img) = imgW img := imgW_mkImg _ _ _ hh
  unfold pipelineCore smoothStage
  refine ⟨?_, ?_, ?_⟩
  · rw [imgH_mkImg, hP]
  · rw [imgW_mkImg _ _ _ hh2, hPw]
  · intro row hrow
    rw [mkImg_rows _ _ _ row hrow, hPw]

/-- Witness for C10 on a concrete well-formed image. -/
theorem c10_witness :
    imgH (pipelineCore imgBlack2) = imgH imgBlack2 ∧
    imgW (pipelineCore imgBlack2) = imgW imgBlack2 ∧
    ∀ row ∈ pipelineCore imgBlack2, row.length = imgW imgBlack2 :=
  c10_dimension_preservation imgBlack2 (by decide)

/-- C1 counterexample: in the 5-by-5 image imgC1 the output center pixel has
alpha 255 yet red channel 56 while the input red channel there is 0: the
final SMOOTH_MORE filter blurs the RGB bands too, not only alpha. -/
theorem c1_counterexample :
    (pixelAt (pipelineCore imgC1) 2 2).a = 255 ∧
    (pixelAt (pipelineCore imgC1) 2 2).r = 56 ∧
    (pixelAt imgC1 2 2).r = 0 := by
  decide

/-- C1 amended: before the smoothing the property holds: a pixel still
carrying nonzero alpha after the Protector pass equals its input pixel in
all four channels; the smoothing then convolves every band, so an output
pixel with alpha 255 can carry an RGB different from its input. -/
theorem c1_amended (img : Image) (y x : Nat)
    (ha : (pixelAt (afterProt img) y x).a ≠ 0) :
    pixelAt (afterProt img) y x = pixelAt img y x := by
  rw [protector_identity] at ha ⊢
  rcases afterCols_or_zero img y x with h | h
  · exact h
  · rw [h] at ha
    exact absurd rfl ha

/-- Witness for C1 amended at a concrete image and position. -/
theorem c1_witness :
    (pixelAt (afterProt imgBlack2) 0 1).a ≠ 0 ∧
    pixelAt (afterProt imgBlack2) 0 1 = pixelAt imgBlack2 0 1 :=
  ⟨by decide, c1_amended imgBlack2 0 1 (by decide)⟩

/-- C2 counterexample: in imgBlue2 the pixel at (0,0) is marked transparent
by the color-distance mask; its input color is blue-dominant by more than 10
over red and green and has channel spread 55 > 15, yet the Protector does
not restore it: its alpha is 0 after the Protector pass and in the output. -/
theorem c2_counterexample :
    pixelAt (afterMask imgBlue2) 0 0 ≠ pixelAt imgBlue2 0 0 ∧
    pixelAt (afterMask imgBlue2) 0 0 = zeroPix ∧
    (pixelAt imgBlue2 0 0).r + 10 < (pixelAt imgBlue2 0 0).b ∧
    (pixelAt imgBlue2 0 0).g + 10 < (pixelAt imgBlue2 0 0).b ∧
    15 < max (pixelAt imgBlue2 0 0).r (max (pixelAt imgBlue2 0 0).g (pixelAt imgBlue2 0 0).b)
        - min (pixelAt imgBlue2 0 0).r (min (pixelAt imgBlue2 0 0).g (pixelAt imgBlue2 0 0).b) ∧
    (pixelAt imgBlue2 0 0).a = 255 ∧
    (pixelAt (afterProt imgBlue2) 0 0).a = 0 ∧
    (pixelAt (pipelineCore imgBlue2) 0 0).a = 0 := by
  decide

/-- C2 amended: a pixel changed (marked transparent) by the color-distance
mask or the line suppressor is stored as (0,0,0,0); neither protection rule
fires on the zeroed RGB, so the Protector leaves every such pixel fully
transparent instead of restoring it. -/
theorem c2_amended (img : Image) (y x : Nat)
    (hchanged : pixelAt (afterCols img) y x ≠ pixelAt img y x) :
    pixelAt (afterCols img) y x = zeroPix ∧ pixelAt (afterProt img) y x = zeroPix := by
  rcases afterCols_or_zero img y x with h | h
  · exact absurd h hchanged
  · refine ⟨h, ?_⟩
    rw [protector_identity]
    exact h

/-- Witness for C2 amended at a concrete image and position. -/
theorem c2_witness :
    pixelAt (afterCols imgBlue2) 0 0 ≠ pixelAt imgBlue2 0 0 ∧
    (pixelAt (afterCols imgBlue2) 0 0 = zeroPix ∧
      pixelAt (afterProt imgBlue2) 0 0 = zeroPix) :=
  ⟨by decide, c2_amended imgBlue2 0 0 (by decide)⟩

/-- C4 counterexample: the middle row of imgLine3 is bright, transparent,
bright; under the narrated rule, where already-transparent pixels also keep
the count growing, the scan would trigger and the row would be wiped, but
the implemented scan resets its count on the transparent pixel, so the row
pass leaves the buffer unchanged: the narrated and implemented passes
disagree on this input. -/
theorem c4_counterexample :
    rowScanGo 3 [pxL, pxT, pxL] 0 = false ∧
    claimRowScanGo 3 [pxL, pxT, pxL] 0 = true ∧
    claimAfterRows imgLine3 ≠ afterRows imgLine3 := by
  decide

/-- C4 amended: the running count increments only on consecutive pixels
that are opaque (alpha > 0) and brighter than 220 in the mean, resetting on
every other pixel, including already-transparent ones; the row is wiped
(every pixel brighter than 200 fully cleared) exactly when such a run
longer than 0.6 of the width exists, and the column pass applies the same
scan and wipe per column with 0.6 of the height. -/
theorem c4_amended :
    (∀ w row, RunExists w row → suppressRow w row = row.map wipe200) ∧
    (∀ w row, ¬ RunExists w row → suppressRow w row = row) ∧
    (∀ img y x, y < imgH img → x < imgW img →
      pixelAt (afterCols img) y x =
        (suppressRow (imgH img) (colOf (afterRows img) (imgH img) x)).getD y zeroPix) := by
  refine ⟨?_, ?_, ?_⟩
  · intro w row h
    unfold suppressRow
    rw [if_pos ((runExists_iff_scan w row).mp h)]
  · intro w row h
    unfold suppressRow
    rw [if_neg]
    intro hs
    exact h ((runExists_iff_scan w row).mpr hs)
  · intro img y x hy hx
    rw [afterCols]
    exact pixelAt_mkImg _ _ _ _ _ hy hx

/-- Witness for C4 amended: a triggering run, a non-triggering row, and the
column-pass decomposition at a concrete position. -/
theorem c4_witness :
    suppressRow 3 [pxL, pxL, pxL] = [pxL, pxL, pxL].map wipe200 ∧
    suppressRow 3 [pxL, pxT, pxL] = [pxL, pxT, pxL] ∧
    pixelAt (afterCols imgLine3) 1 1 =
      (suppressRow (imgH imgLine3) (colOf (afterRows imgLine3) (imgH imgLine3) 1)).getD 1
        zeroPix := by
  refine ⟨c4_amended.1 3 [pxL, pxL, pxL] ⟨[], [pxL, pxL, pxL], [], by simp, by decide, by decide⟩,
    c4_amended.2.1 3 [pxL, pxT, pxL] ?_,
    c4_amended.2.2 imgLine3 1 1 (by decide) (by decide)⟩
  intro h
  exact absurd ((runExists_iff_scan 3 [pxL, pxT, pxL]).mp h) (by decide)

theorem getD_replicate {α : Type} (n : Nat) (a d : α) (i : Nat) (hi : i < n) :
    (List.replicate n a).getD i d = a := by
  rw [List.getD_eq_getElem?_getD, List.getElem?_replicate]
  simp [hi]

/-- The smoothing either copies a pixel (border, or image smaller than the
kernel) or replaces its alpha with the clipped kernel-weighted window sum. -/
theorem smoothStage_alpha (P : Image) (y x : Nat) (hy : y < imgH P) (hx : x < imgW P) :
    (pixelAt (smoothStage P) y x).a = (pixelAt P y x).a ∨
    ((2 ≤ y ∧ y + 2 < imgH P ∧ 2 ≤ x ∧ x + 2 < imgW P) ∧
      (pixelAt (smoothStage P) y x).a = clip8 (convChan P y x Pixel.a)) := by
  unfold smoothStage
  rw [pixelAt_mkImg _ _ _ _ _ hy hx]
  unfold smoothAt
  split_ifs with hint
  · right
    exact ⟨hint, rfl⟩
  · left
    rfl

/-- C6: a pixel that is opaque (alpha 255) after the Protector pass is never
re-zeroed by any later step: the only later step is the smoothing, which
copies border pixels and keeps an interior opaque pixel at alpha at least
44 * 255 / 100 = 112, strictly positive. -/
theorem c6_no_rezero (img : Image) (y x : Nat) (hy : y < imgH img) (hx : x < imgW img)
    (ha : (pixelAt (afterProt img) y x).a = 255) :
    0 < (pixelAt (pipelineCore img) y x).a := by
  have hh : 0 < imgH img := lt_of_le_of_lt (Nat.zero_le y) hy
  have hP : imgH (afterProt img) = imgH img := imgH_mkImg _ _ _
  have hPw : imgW (afterProt img) = imgW img := imgW_mkImg _ _ _ hh
  have hy2 : y < imgH (afterProt img) := by
    rw [hP]
    exact hy
  have hx2 : x < imgW (afterProt img) := by
    rw [hPw]
    exact hx
  unfold pipelineCore
  rcases smoothStage_alpha (afterProt img) y x hy2 hx2 with hcase | ⟨-, hcase⟩
  · rw [hcase, ha]
    norm_num
  · rw [hcase]
    apply clip8_pos
    have hc := convChan_ge_center (afterProt img) y x Pixel.a
    rw [ha] at hc
    omega

/-- Witness for C6 at a concrete image and position. -/
theorem c6_witness :
    (pixelAt (afterProt imgBlack2) 0 0).a = 255 ∧
    0 < (pixelAt (pipelineCore imgBlack2) 0 0).a :=
  ⟨by decide, c6_no_rezero imgBlack2 0 0 (by decide) (by decide) (by decide)⟩

/-- C7 counterexample: imgBlack3 has all four corners the pure uniform color
(0,0,0) and no pixel of any other color at all, yet the pixel of exactly
that color at (1,1) ends with alpha 255 instead of 0: a dark corner color is
never cleared because the mask also requires mean brightness above 180. -/
theorem c7_counterexample :
    imgBlack3 = List.replicate 3 (List.replicate 3 ⟨0, 0, 0, 255⟩) ∧
    (pixelAt (pipelineCore imgBlack3) 1 1).a = 255 := by
  decide

/-- C7 amended: if the four corners carry one color c of mean brightness
above 180, every pixel of a different color is at RGB distance at least 40
from c, and no pixel of a different color has mean brightness above 240,
then the color-distance mask pass clears exactly the pixels of color c and
leaves every other pixel unchanged; the line suppressor and the final
smoothing may still change alpha afterwards. -/
theorem c7_amended (img : Image) (c : Pixel)
    (h00 : rgbEq (pixelAt img 0 0) c)
    (h01 : rgbEq (pixelAt img 0 (imgW img - 1)) c)
    (h10 : rgbEq (pixelAt img (imgH img - 1) 0) c)
    (h11 : rgbEq (pixelAt img (imgH img - 1) (imgW img - 1)) c)
    (hbright : 540 < sum3 c)
    (hothers : ∀ y, y < imgH img → ∀ x, x < imgW img →
      ¬ rgbEq (pixelAt img y x) c →
      25600 ≤ dist2 ⟨4 * c.r, 4 * c.g, 4 * c.b⟩ (pixelAt img y x) ∧
        sum3 (pixelAt img y x) ≤ 720) :
    ∀ y, y < imgH img → ∀ x, x < imgW img →
      (rgbEq (pixelAt img y x) c → pixelAt (afterMask img) y x = zeroPix) ∧
      (¬ rgbEq (pixelAt img y x) c → pixelAt (afterMask img) y x = pixelAt img y x) := by
  have hbg : bgOf img = ⟨4 * c.r, 4 * c.g, 4 * c.b⟩ := by
    unfold rgbEq at h00 h01 h10 h11
    obtain ⟨hr0, hg0, hb0⟩ := h00
    obtain ⟨hr1, hg1, hb1⟩ := h01
    obtain ⟨hr2, hg2, hb2⟩ := h10
    obtain ⟨hr3, hg3, hb3⟩ := h11
    unfold bgOf
    simp only [BgSum.mk.injEq]
    refine ⟨?_, ?_, ?_⟩ <;> omega
  intro y hy x hx
  constructor
  · intro hc
    unfold rgbEq at hc
    obtain ⟨hr, hg, hb⟩ := hc
    rw [afterMask, pixelAt_mkImg _ _ _ _ _ hy hx]
    unfold maskPixel
    rw [hbg]
    have hd : dist2 ⟨4 * c.r, 4 * c.g, 4 * c.b⟩ (pixelAt img y x) = 0 := by
      unfold dist2
      rw [hr, hg, hb]
      push_cast
      ring
    have hs : sum3 (pixelAt img y x) = sum3 c := by
      unfold sum3
      rw [hr, hg, hb]
    rw [if_pos (by rw [hd]; norm_num), if_pos (by rw [hs]; exact hbright)]
  · intro hc
    rw [afterMask, pixelAt_mkImg _ _ _ _ _ hy hx]
    unfold maskPixel
    rw [hbg]
    obtain ⟨hd, hs⟩ := hothers y hy x hx hc
    rw [if_neg (not_lt.mpr hd), if_neg (not_lt.mpr hs)]

/-- Witness for C7 amended on a concrete image: a corner-colored pixel is
cleared by the mask, the differently colored center pixel is untouched. -/
theorem c7_witness :
    pixelAt (afterMask imgGray3) 0 1 = zeroPix ∧
    pixelAt (afterMask imgGray3) 1 1 = pixelAt imgGray3 1 1 := by
  have h := c7_amended imgGray3 ⟨200, 200, 200, 255⟩ (by decide) (by decide) (by decide)
    (by decide) (by decide) (by decide)
  exact ⟨(h 0 (by decide) 1 (by decide)).1 (by decide),
    (h 1 (by decide) 1 (by decide)).2 (by decide)⟩

/-- C9 counterexample: imgBlack2 consists entirely of one uniform color,
yet the output pixel at (0,0) has alpha 255 instead of 0: a dark uniform
color is cleared by no pass, because the mask also requires mean brightness
above 180 and the near-white rule requires mean brightness above 240. -/
theorem c9_counterexample :
    imgBlack2 = List.replicate 2 (List.replicate 2 ⟨0, 0, 0, 255⟩) ∧
    (pixelAt (pipelineCore imgBlack2) 0 0).a = 255 := by
  decide

set_option maxHeartbeats 1000000 in
/-- C9 amended: for an input image consisting entirely of one uniform color
whose mean brightness exceeds 180, every output pixel has alpha 0: the mask
clears every pixel, and the suppressor, the protector, and the smoothing
keep an all-zero buffer all-zero. -/
theorem c9_amended (h w : Nat) (p : Pixel) (hh : 0 < h) (hw : 0 < w)
    (hbright : 540 < sum3 p) :
    ∀ y, y < h → ∀ x, x < w →
      (pixelAt (pipelineCore (List.replicate h (List.replicate w p))) y x).a = 0 := by
  intro y hy x hx
  have hUH : imgH (List.replicate h (List.replicate w p)) = h := by
    simp [imgH]
  have hUW : imgW (List.replicate h (List.replicate w p)) = w := by
    unfold imgW
    rw [getD_replicate h _ _ 0 hh]
    simp
  have hpix : ∀ y2, y2 < h → ∀ x2, x2 < w →
      pixelAt (List.replicate h (List.replicate w p)) y2 x2 = p := by
    intro y2 hy2 x2 hx2
    unfold pixelAt
    rw [getD_replicate h _ _ y2 hy2, getD_replicate w _ _ x2 hx2]
  have hbg : bgOf (List.replicate h (List.replicate w p)) =
      ⟨p.r + p.r + p.r + p.r, p.g + p.g + p.g + p.g, p.b + p.b + p.b + p.b⟩ := by
    unfold bgOf
    rw [hUH, hUW, hpix 0 hh 0 hw, hpix 0 hh (w - 1) (Nat.sub_lt hw Nat.one_pos),
      hpix (h - 1) (Nat.sub_lt hh Nat.one_pos) 0 hw,
      hpix (h - 1) (Nat.sub_lt hh Nat.one_pos) (w - 1) (Nat.sub_lt hw Nat.one_pos)]
  have hZM : ∀ y2, y2 < h → ∀ x2, x2 < w →
      pixelAt (afterMask (List.replicate h (List.replicate w p))) y2 x2 = zeroPix := by
    intro y2 hy2 x2 hx2
    rw [afterMask, pixelAt_mkImg _ _ _ _ _ (by rw [hUH]; exact hy2) (by rw [hUW]; exact hx2),
      hbg, hpix y2 hy2 x2 hx2]
    unfold maskPixel
    have hd0 : dist2 ⟨p.r + p.r + p.r + p.r, p.g + p.g + p.g + p.g,
        p.b + p.b + p.b + p.b⟩ p = 0 := by
      unfold dist2
      push_cast
      ring
    rw [if_pos (by rw [hd0]; norm_num), if_pos hbright]
  have hZR : ∀ y2, y2 < h → ∀ x2, x2 < w →
      pixelAt (afterRows (List.replicate h (List.replicate w p))) y2 x2 = zeroPix := by
    intro y2 hy2 x2 hx2
    rcases afterRows_or (List.replicate h (List.replicate w p)) y2 x2 with hcase | hcase
    · rw [hcase, hZM y2 hy2 x2 hx2]
    · rw [hcase, hZM y2 hy2 x2 hx2, wipe200_zero]
  have hZC : ∀ y2, y2 < h → ∀ x2, x2 < w →
      pixelAt (afterCols (List.replicate h (List.replicate w p))) y2 x2 = zeroPix := by
    intro y2 hy2 x2 hx2
    rw [afterCols, pixelAt_mkImg _ _ _ _ _ (by rw [hUH]; exact hy2) (by rw [hUW]; exact hx2),
      hUH]
    have hcol : ∀ q ∈ colOf (afterRows (List.replicate h (List.replicate w p))) h x2,
        q = zeroPix := by
      intro q hq
      unfold colOf at hq
      rcases List.mem_map.mp hq with ⟨y3, hy3, hq2⟩
      rw [← hq2]
      exact hZR y3 (List.mem_range.mp hy3) x2 hx2
    rw [suppressRow_zeroRow _ _ hcol]
    exact getD_zeroList _ y2 hcol
  have hZP : ∀ y2, y2 < h → ∀ x2, x2 < w →
      pixelAt (afterProt (List.replicate h (List.replicate w p))) y2 x2 = zeroPix := by
    intro y2 hy2 x2 hx2
    rw [protector_identity]
    exact hZC y2 hy2 x2 hx2
  have hPH : imgH (afterProt (List.replicate h (List.replicate w p))) = h := by
    rw [afterProt, imgH_mkImg, hUH]
  have hPW : imgW (afterProt (List.replicate h (List.replicate w p))) = w := by
    rw [afterProt, imgW_mkImg _ _ _ (by rw [hUH]; exact hh), hUW]
  unfold pipelineCore
  rcases smoothStage_alpha (afterProt (List.replicate h (List.replicate w p))) y x
      (by rw [hPH]; exact hy) (by rw [hPW]; exact hx) with hcase | ⟨hint, hcase⟩
  · rw [hcase, hZP y hy x hx]
    rfl
  · rw [hPH, hPW] at hint
    rw [hcase, convChan_zeroWindow _ _ _ _ ?hz]
    case hz =>
      intro i j hi hj
      rw [hZP (y + i - 2) (by omega) (x + j - 2) (by omega)]
      rfl
    decide

/-- Witness for C9 amended at a concrete bright uniform image. -/
theorem c9_witness :
    0 < 2 ∧ 540 < sum3 ⟨200, 200, 200, 255⟩ ∧
    (pixelAt (pipelineCore (List.replicate 2 (List.replicate 2
      (⟨200, 200, 200, 255⟩ : Pixel)))) 0 0).a = 0 :=
  ⟨by decide, by decide,
    c9_amended 2 2 ⟨200, 200, 200, 255⟩ (by decide) (by decide) (by decide) 0 (by decide)
      0 (by decide)⟩
